import Mathlib

/-!
Verification of the atomas detection-to-structure pipeline.

This file gives a shallow embedding of the core data structures and
algorithms of the repository — bounding boxes with non-maximum suppression
(crates/atomas-cv/src/bbox.rs), the geometric ring/center classifier
(crates/atomas-cv/src/detection/detector.rs), and the circular list that
stores the final ring (crates/atomas-core/src/ring/circularlist.rs) — and
proves or refutes the specification claims about them.

Modelling conventions:
* Rust `f64` values are modelled exactly as rationals together with an
  explicit NaN constructor (`F64`); infinities do not arise in the claims
  considered.  Comparisons through `partial_cmp(..).unwrap()` are modelled
  in the `Except Unit` monad, where `Except.error ()` stands for the
  `unwrap` panic on a NaN comparison.
* `slice::sort_by` (a stable sort) is modelled as a stable insertion sort
  carried out in the `Except Unit` monad so that comparator panics are
  observable.  For NaN-free inputs the comparator is a total preorder and
  every stable sort agrees with stable insertion sort.
* Rust `i32` coordinates are modelled as `Int` (overflow does not occur at
  the magnitudes the claims quantify over); `i32` division in
  `BBox::center` truncates toward zero and is modelled by `Int.tdiv`.
* The `Rc<RefCell<Node>>` heap of the circular list is modelled as an
  arena: a list of nodes addressed by allocation index, with `next`/`prev`
  stored as optional indices.  `Option.none` as a result of a list
  operation models an `unwrap` panic on a null pointer.
-/

attribute [local semireducible] Rat.mul Rat.add Rat.sub Rat.inv

deriving instance DecidableEq for Except

namespace Atomas

/-- Model of a Rust `f64` value: either a numeric (rational) value or NaN. -/
inductive F64 where
  | val (q : ℚ)
  | nan
deriving DecidableEq, Repr

/-- Rust `f64::partial_cmp`: `none` exactly when either operand is NaN. -/
def F64.pcmp : F64 → F64 → Option Ordering
  | .val a, .val b => some (compare a b)
  | _, _ => none

/-- `BBox` (bbox.rs): a detection with geometry, confidence and metadata.
Default field values mirror `BBox::new`. -/
structure BBox where
  x : Int
  y : Int
  width : Int
  height : Int
  confidence : F64
  class_id : String := ""
  color : Nat × Nat × Nat := (255, 255, 255)
  metadata : List (String × String) := []
deriving DecidableEq, Repr

/-- `BBox::area`: `(width * height) as f64`. -/
def BBox.area (b : BBox) : ℚ := ((b.width * b.height : Int) : ℚ)

/-- `BBox::center`: `(x + width / 2, y + height / 2)` with `i32` division
(truncation toward zero, `Int.tdiv`). -/
def BBox.center (b : BBox) : Int × Int :=
  (b.x + Int.tdiv b.width 2, b.y + Int.tdiv b.height 2)

/-- `BBox::iou`: intersection over union.  Intersection and union are
integer-valued `f64` quantities (`area` is `(width * height) as f64`), so
the final `f64` quotient is modelled exactly as the rational
`Rat.divInt intersection union` (division by zero yields `0` in `ℚ`; it
only arises for degenerate boxes, where the source would produce NaN or
infinity). -/
def BBox.iou (s o : BBox) : ℚ :=
  let x1 := max s.x o.x
  let y1 := max s.y o.y
  let x2 := min (s.x + s.width) (o.x + o.width)
  let y2 := min (s.y + s.height) (o.y + o.height)
  if x2 ≤ x1 ∨ y2 ≤ y1 then 0
  else
    let inter : Int := (x2 - x1) * (y2 - y1)
    Rat.divInt inter (s.width * s.height + o.width * o.height - inter)

/-- `BBox::overlaps`: `iou(other) > threshold`. -/
def BBox.overlaps (s o : BBox) (threshold : ℚ) : Bool :=
  decide (threshold < s.iou o)

/-- `BBoxCollection` (bbox.rs): a wrapper around a vector of boxes. -/
structure BBoxCollection where
  boxes : List BBox := []
deriving DecidableEq, Repr

/-- `BBoxCollection::push`: unconditionally appends the box. -/
def BBoxCollection.push (c : BBoxCollection) (bbox : BBox) : BBoxCollection :=
  ⟨c.boxes ++ [bbox]⟩

/-- `BBoxCollection::extend`: unconditionally appends all boxes of `other`. -/
def BBoxCollection.extend (c other : BBoxCollection) : BBoxCollection :=
  ⟨c.boxes ++ other.boxes⟩

/-- `BBoxCollection::len`. -/
def BBoxCollection.length (c : BBoxCollection) : Nat := c.boxes.length

/-- One comparator call of `sort_by_confidence`, i.e.
`b.confidence.partial_cmp(&a.confidence).unwrap()`; the error models the
`unwrap` panic when either confidence is NaN. -/
def cmpConf (a b : BBox) : Except Unit Ordering :=
  match b.confidence.pcmp a.confidence with
  | some o => .ok o
  | none => .error ()

/-- Stable insertion of a box into a list already sorted by `cmpConf`
(descending confidence): the new box is placed before the first element it
does not compare `gt` to, as a stable sort would. -/
def insertByConf (a : BBox) : List BBox → Except Unit (List BBox)
  | [] => .ok [a]
  | b :: rest =>
      match cmpConf a b with
      | .error e => .error e
      | .ok o =>
          if o = Ordering.gt then
            match insertByConf a rest with
            | .error e => .error e
            | .ok r => .ok (b :: r)
          else .ok (a :: b :: rest)

/-- `BBoxCollection::sort_by_confidence`, modelled as a stable insertion
sort in the `Except` monad.  For NaN-free inputs this agrees with Rust's
stable `sort_by`; an error models a comparator panic. -/
def sortByConf : List BBox → Except Unit (List BBox)
  | [] => .ok []
  | a :: rest =>
      match sortByConf rest with
      | .error e => .error e
      | .ok s => insertByConf a s

/-- The suppression sweep of `apply_nms`, on boxes paired with their
`suppressed` flag: a suppressed box is skipped; a kept box is emitted and
marks every later box it overlaps as suppressed.  `fuel` is an upper bound
on the number of processed entries (the caller passes the list length);
the inner marking pass preserves length, so the fuel never runs out. -/
def nmsSweepF (t : ℚ) : Nat → List (BBox × Bool) → List BBox
  | 0, _ => []
  | _, [] => []
  | fuel + 1, (_, true) :: rest => nmsSweepF t fuel rest
  | fuel + 1, (b, false) :: rest =>
      b :: nmsSweepF t fuel (rest.map (fun p => (p.1, p.2 || b.overlaps p.1 t)))

/-- `BBoxCollection::apply_nms`: early return on the empty collection,
otherwise sort by confidence (possible panic) and run the greedy sweep. -/
def BBoxCollection.applyNms (c : BBoxCollection) (threshold : ℚ) :
    Except Unit BBoxCollection :=
  if c.boxes.isEmpty then .ok c
  else
    match sortByConf c.boxes with
    | .error e => .error e
    | .ok sorted =>
        .ok ⟨nmsSweepF threshold sorted.length (sorted.map (fun b => (b, false)))⟩

/-- `BBoxCollection::apply_global_nms`: delegates to `apply_nms`. -/
def BBoxCollection.applyGlobalNms (c : BBoxCollection) (threshold : ℚ) :
    Except Unit BBoxCollection :=
  c.applyNms threshold

/-- The rational value of a numeric `F64` (`0` for NaN; only used under
non-NaN hypotheses). -/
def F64.toQ : F64 → ℚ
  | .val q => q
  | .nan => 0

/-- Descending-confidence order between boxes, as the sort comparator sees
it on numeric confidences. -/
def ConfGe (a b : BBox) : Prop := b.confidence.toQ ≤ a.confidence.toQ

theorem cmpConf_ok {a b : BBox} (ha : a.confidence ≠ F64.nan)
    (hb : b.confidence ≠ F64.nan) :
    cmpConf a b = .ok (compare b.confidence.toQ a.confidence.toQ) := by
  cases hca : a.confidence with
  | nan => exact absurd hca ha
  | val qa =>
    cases hcb : b.confidence with
    | nan => exact absurd hcb hb
    | val qb => simp [cmpConf, F64.pcmp, hca, hcb, F64.toQ]

theorem cmpConf_err {a b : BBox}
    (h : a.confidence = F64.nan ∨ b.confidence = F64.nan) :
    cmpConf a b = .error () := by
  rcases h with h | h <;>
    [cases b.confidence <;> simp [cmpConf, F64.pcmp, h];
     simp [cmpConf, F64.pcmp, h]]

theorem insertByConf_perm {a : BBox} :
    ∀ {l r : List BBox}, insertByConf a l = .ok r → r.Perm (a :: l)
  | [], r, h => by
      simp only [insertByConf, Except.ok.injEq] at h
      subst h; exact List.Perm.refl _
  | b :: rest, r, h => by
      simp only [insertByConf] at h
      cases hc : cmpConf a b with
      | error e => rw [hc] at h; cases h
      | ok o =>
        simp only [hc] at h
        by_cases ho : o = Ordering.gt
        · rw [if_pos ho] at h
          cases hr : insertByConf a rest with
          | error e => rw [hr] at h; cases h
          | ok r' =>
            rw [hr] at h
            cases h
            exact ((insertByConf_perm hr).cons b).trans (List.Perm.swap a b rest)
        · rw [if_neg ho] at h
          cases h
          exact List.Perm.refl _

theorem sortByConf_perm :
    ∀ {l r : List BBox}, sortByConf l = .ok r → r.Perm l
  | [], r, h => by
      simp only [sortByConf, Except.ok.injEq] at h
      subst h; exact List.Perm.refl _
  | a :: rest, r, h => by
      simp only [sortByConf] at h
      cases hs : sortByConf rest with
      | error e => rw [hs] at h; cases h
      | ok s =>
        simp only [hs] at h
        exact (insertByConf_perm h).trans ((sortByConf_perm hs).cons a)

theorem insertByConf_total {a : BBox} (ha : a.confidence ≠ F64.nan) :
    ∀ {l : List BBox}, (∀ x ∈ l, x.confidence ≠ F64.nan) →
      ∃ r, insertByConf a l = .ok r
  | [], _ => ⟨[a], rfl⟩
  | b :: rest, hl => by
      have hb := hl b (List.mem_cons_self b rest)
      have hrest : ∀ x ∈ rest, x.confidence ≠ F64.nan := fun x hx =>
        hl x (List.mem_cons_of_mem b hx)
      simp only [insertByConf, cmpConf_ok ha hb]
      by_cases ho : compare b.confidence.toQ a.confidence.toQ = Ordering.gt
      · obtain ⟨r, hr⟩ := insertByConf_total ha hrest
        exact ⟨b :: r, by rw [if_pos ho, hr]⟩
      · exact ⟨a :: b :: rest, by rw [if_neg ho]⟩

theorem sortByConf_total :
    ∀ {l : List BBox}, (∀ x ∈ l, x.confidence ≠ F64.nan) →
      ∃ r, sortByConf l = .ok r
  | [], _ => ⟨[], rfl⟩
  | a :: rest, hl => by
      have ha := hl a (List.mem_cons_self a rest)
      have hrest : ∀ x ∈ rest, x.confidence ≠ F64.nan := fun x hx =>
        hl x (List.mem_cons_of_mem a hx)
      obtain ⟨s, hs⟩ := sortByConf_total hrest
      have hsmem : ∀ x ∈ s, x.confidence ≠ F64.nan := fun x hx =>
        hrest x ((sortByConf_perm hs).mem_iff.mp hx)
      obtain ⟨r, hr⟩ := insertByConf_total ha hsmem
      exact ⟨r, by simp only [sortByConf, hs]; exact hr⟩

theorem insertByConf_err_of_nan {a : BBox} (ha : a.confidence = F64.nan)
    {b : BBox} {rest : List BBox} :
    insertByConf a (b :: rest) = .error () := by
  simp only [insertByConf, cmpConf_err (Or.inl ha)]

/-- With at least two boxes and a NaN confidence present, the modelled
stable sort performs a comparison against the NaN box and panics. -/
theorem sortByConf_err :
    ∀ {l : List BBox}, (∃ b ∈ l, b.confidence = F64.nan) → 2 ≤ l.length →
      sortByConf l = .error ()
  | [], h, _ => by simp at h
  | a :: rest, h, hlen => by
      simp only [sortByConf]
      by_cases hr : ∃ b ∈ rest, b.confidence = F64.nan
      · by_cases h2 : 2 ≤ rest.length
        · rw [sortByConf_err hr h2]
        · -- rest is a singleton containing the NaN box
          obtain ⟨b, hb, hbn⟩ := hr
          have : rest = [b] := by
            cases rest with
            | nil => cases hb
            | cons x xs =>
              cases xs with
              | nil => cases hb with
                | head => rfl
                | tail _ hx => cases hx
              | cons y ys => exact absurd (by simp only [List.length_cons]; omega) h2
          subst this
          have : sortByConf [b] = .ok [b] := rfl
          rw [this]
          simp only [insertByConf, cmpConf_err (Or.inr hbn)]
      · -- the NaN box is the head; the sorted tail is nonempty
        obtain ⟨b, hb, hbn⟩ := h
        have hab : a.confidence = F64.nan := by
          cases hb with
          | head => exact hbn
          | tail _ hx => exact absurd ⟨b, hx, hbn⟩ hr
        have hrest : ∀ x ∈ rest, x.confidence ≠ F64.nan := fun x hx hxn =>
          hr ⟨x, hx, hxn⟩
        obtain ⟨s, hs⟩ := sortByConf_total hrest
        rw [hs]
        have hslen : s.length = rest.length := (sortByConf_perm hs).length_eq
        cases s with
        | nil =>
          exfalso
          have : rest.length = 0 := by rw [← hslen]; rfl
          simp only [List.length_cons, this] at hlen
          omega
        | cons x xs => exact insertByConf_err_of_nan hab

theorem BBox.iou_comm (s o : BBox) : s.iou o = o.iou s := by
  simp only [BBox.iou]
  rw [max_comm o.x, max_comm o.y, min_comm (o.x + o.width),
    min_comm (o.y + o.height), add_comm (o.width * o.height)]

theorem nmsSweepF_sublist (t : ℚ) :
    ∀ (fuel : Nat) (l : List (BBox × Bool)),
      (nmsSweepF t fuel l).Sublist (l.map Prod.fst)
  | 0, l => by simp [nmsSweepF]
  | _ + 1, [] => by simp [nmsSweepF]
  | fuel + 1, (b, true) :: rest => by
      simpa only [nmsSweepF, List.map_cons] using
        (nmsSweepF_sublist t fuel rest).cons b
  | fuel + 1, (b, false) :: rest => by
      simp only [nmsSweepF, List.map_cons]
      have h := nmsSweepF_sublist t fuel
        (rest.map (fun p => (p.1, p.2 || b.overlaps p.1 t)))
      rw [List.map_map] at h
      exact h.cons₂ b

theorem mem_nmsSweepF {t : ℚ} {x : BBox} :
    ∀ {fuel : Nat} {l : List (BBox × Bool)},
      x ∈ nmsSweepF t fuel l → (x, false) ∈ l := by
  intro fuel
  induction fuel with
  | zero => intro l h; simp [nmsSweepF] at h
  | succ fuel ih =>
    intro l h
    match l with
    | [] => simp [nmsSweepF] at h
    | (b, true) :: rest => exact List.mem_cons_of_mem _ (ih h)
    | (b, false) :: rest =>
      rcases List.mem_cons.mp h with h | h
      · subst h; exact List.mem_cons_self _ _
      · have h2 := ih h
        obtain ⟨p, hp, hpe⟩ := List.mem_map.mp h2
        obtain ⟨h1, h2⟩ := Prod.mk.injEq .. ▸ hpe
        rcases Bool.or_eq_false_iff.mp h2 with ⟨hp2, _⟩
        have : p = (x, false) := by
          cases p; simp_all
        exact List.mem_cons_of_mem _ (this ▸ hp)

theorem nmsSweepF_pairwise (t : ℚ) :
    ∀ (fuel : Nat) (l : List (BBox × Bool)),
      (nmsSweepF t fuel l).Pairwise (fun a b => a.iou b ≤ t)
  | 0, l => by simp [nmsSweepF]
  | _ + 1, [] => by simp [nmsSweepF]
  | fuel + 1, (b, true) :: rest => nmsSweepF_pairwise t fuel rest
  | fuel + 1, (b, false) :: rest => by
      simp only [nmsSweepF]
      refine List.Pairwise.cons ?_ (nmsSweepF_pairwise t fuel _)
      intro c hc
      have hmem := mem_nmsSweepF hc
      obtain ⟨p, hp, hpe⟩ := List.mem_map.mp hmem
      obtain ⟨h1, h2⟩ := Prod.mk.injEq .. ▸ hpe
      rcases Bool.or_eq_false_iff.mp h2 with ⟨_, hover⟩
      have := of_decide_eq_false (h1 ▸ hover)
      exact le_of_not_lt this

theorem nmsSweepF_id (t : ℚ) :
    ∀ (l : List BBox) (fuel : Nat), l.length ≤ fuel →
      l.Pairwise (fun a b => a.overlaps b t = false) →
      nmsSweepF t fuel (l.map (fun b => (b, false))) = l
  | [], fuel, _, _ => by cases fuel <;> rfl
  | a :: rest, 0, h, _ => by simp at h
  | a :: rest, fuel + 1, h, hp => by
      simp only [List.map_cons, nmsSweepF]
      rw [List.map_map]
      have hmap : rest.map
          ((fun p : BBox × Bool => (p.1, p.2 || a.overlaps p.1 t)) ∘
            fun b => (b, false)) = rest.map (fun b => (b, false)) := by
        apply List.map_congr_left
        intro x hx
        have := (List.pairwise_cons.mp hp).1 x hx
        simp [Function.comp, this]
      rw [hmap, nmsSweepF_id t rest fuel (by simpa using h)
        (List.pairwise_cons.mp hp).2]

theorem insertByConf_sorted {a : BBox} (ha : a.confidence ≠ F64.nan) :
    ∀ {l r : List BBox}, (∀ x ∈ l, x.confidence ≠ F64.nan) →
      l.Pairwise ConfGe → insertByConf a l = .ok r → r.Pairwise ConfGe
  | [], r, _, _, h => by
      simp only [insertByConf, Except.ok.injEq] at h
      subst h; exact List.pairwise_singleton _ _
  | b :: rest, r, hnum, hp, h => by
      have hb := hnum b (List.mem_cons_self b rest)
      have hrest : ∀ x ∈ rest, x.confidence ≠ F64.nan := fun x hx =>
        hnum x (List.mem_cons_of_mem b hx)
      simp only [insertByConf, cmpConf_ok ha hb] at h
      by_cases ho : compare b.confidence.toQ a.confidence.toQ = Ordering.gt
      · rw [if_pos ho] at h
        cases hr : insertByConf a rest with
        | error e => rw [hr] at h; cases h
        | ok r' =>
          rw [hr] at h
          cases h
          refine List.Pairwise.cons ?_
            (insertByConf_sorted ha hrest (List.pairwise_cons.mp hp).2 hr)
          intro y hy
          rcases List.mem_cons.mp ((insertByConf_perm hr).mem_iff.mp hy)
            with hy | hy
          · subst hy
            exact le_of_lt (compare_gt_iff_gt.mp ho)
          · exact (List.pairwise_cons.mp hp).1 y hy
      · rw [if_neg ho] at h
        cases h
        have hba : ConfGe a b :=
          le_of_not_lt (fun hlt => ho (compare_gt_iff_gt.mpr hlt))
        refine List.Pairwise.cons ?_ hp
        intro y hy
        rcases List.mem_cons.mp hy with hy | hy
        · subst hy; exact hba
        · exact le_trans ((List.pairwise_cons.mp hp).1 y hy) hba

theorem sortByConf_sorted :
    ∀ {l r : List BBox}, (∀ x ∈ l, x.confidence ≠ F64.nan) →
      sortByConf l = .ok r → r.Pairwise ConfGe
  | [], r, _, h => by
      simp only [sortByConf, Except.ok.injEq] at h
      subst h; exact List.Pairwise.nil
  | a :: rest, r, hnum, h => by
      have ha := hnum a (List.mem_cons_self a rest)
      have hrest : ∀ x ∈ rest, x.confidence ≠ F64.nan := fun x hx =>
        hnum x (List.mem_cons_of_mem a hx)
      simp only [sortByConf] at h
      cases hs : sortByConf rest with
      | error e => rw [hs] at h; cases h
      | ok s =>
        rw [hs] at h
        have hsmem : ∀ x ∈ s, x.confidence ≠ F64.nan := fun x hx =>
          hrest x ((sortByConf_perm hs).mem_iff.mp hx)
        exact insertByConf_sorted ha hsmem (sortByConf_sorted hrest hs) h

theorem sortByConf_of_sorted :
    ∀ {l : List BBox}, (∀ x ∈ l, x.confidence ≠ F64.nan) →
      l.Pairwise ConfGe → sortByConf l = .ok l
  | [], _, _ => rfl
  | a :: rest, hnum, hp => by
      have ha := hnum a (List.mem_cons_self a rest)
      have hrest : ∀ x ∈ rest, x.confidence ≠ F64.nan := fun x hx =>
        hnum x (List.mem_cons_of_mem a hx)
      have hs := sortByConf_of_sorted hrest (List.pairwise_cons.mp hp).2
      simp only [sortByConf, hs]
      cases rest with
      | nil => rfl
      | cons b rbs =>
        have hb := hrest b (List.mem_cons_self b rbs)
        have hab : ConfGe a b :=
          (List.pairwise_cons.mp hp).1 b (List.mem_cons_self b rbs)
        simp only [insertByConf, cmpConf_ok ha hb]
        rw [if_neg (fun hgt => absurd (compare_gt_iff_gt.mp hgt)
          (not_lt.mpr hab))]

/-- Concrete boxes used by witnesses: two heavily overlapping detections
(IoU 8/17) with distinct numeric confidences. -/
def wb1 : BBox :=
  { x := 0, y := 0, width := 10, height := 10, confidence := F64.val (mkRat 9 10) }

/-- Second witness box, overlapping `wb1`. -/
def wb2 : BBox :=
  { x := 2, y := 2, width := 10, height := 10, confidence := F64.val (mkRat 4 5) }

/-- Box with NaN confidence, used in counterexamples. -/
def nanBox : BBox :=
  { x := 0, y := 0, width := 10, height := 10, confidence := F64.nan }

/-- Malformed box (negative width), used in counterexamples. -/
def badBox : BBox :=
  { x := 0, y := 0, width := -1, height := 5, confidence := F64.val (mkRat 9 10) }

/-- C2: for a collection whose boxes all have non-NaN confidence and any
threshold `t`, every box surviving `apply_nms t` (equivalently
`apply_global_nms t`) is one of the input boxes, unchanged, and any two
survivors at distinct positions have IoU at most `t`. -/
theorem nms_result_subset_and_max_iou (c : BBoxCollection) (t : ℚ)
    (hN : ∀ b ∈ c.boxes, b.confidence ≠ F64.nan)
    (r : BBoxCollection) (hr : c.applyNms t = .ok r) :
    (∀ b ∈ r.boxes, b ∈ c.boxes) ∧
    (∀ i j : Fin r.boxes.length, i ≠ j →
      (r.boxes.get i).iou (r.boxes.get j) ≤ t) ∧
    c.applyGlobalNms t = .ok r := by
  have key : (∀ b ∈ r.boxes, b ∈ c.boxes) ∧
      r.boxes.Pairwise (fun a b => a.iou b ≤ t) := by
    by_cases he : c.boxes.isEmpty
    · rw [BBoxCollection.applyNms, if_pos he] at hr
      cases hr
      rw [List.isEmpty_iff.mp he]
      exact ⟨by simp, List.Pairwise.nil⟩
    · rw [BBoxCollection.applyNms, if_neg he] at hr
      cases hs : sortByConf c.boxes with
      | error e => rw [hs] at hr; cases hr
      | ok s =>
        rw [hs] at hr
        cases hr
        refine ⟨?_, nmsSweepF_pairwise t _ _⟩
        intro b hb
        have hsub := nmsSweepF_sublist t s.length (s.map fun b => (b, false))
        have hmapfst : List.map Prod.fst (s.map fun b => (b, false)) = s := by
          rw [List.map_map]
          exact (List.map_congr_left fun a _ => rfl).trans (List.map_id s)
        rw [hmapfst] at hsub
        exact (sortByConf_perm hs).mem_iff.mp (hsub.subset hb)
  refine ⟨key.1, ?_, hr⟩
  intro i j hij
  rcases lt_or_gt_of_ne hij with h | h
  · exact List.pairwise_iff_get.mp key.2 i j h
  · rw [BBox.iou_comm]
    exact List.pairwise_iff_get.mp key.2 j i h

/-- C2 witness: with boxes `wb1`, `wb2` (IoU 8/17 above the threshold 2/5)
the survivor set is `[wb1]`, the hypotheses of the theorem hold, and the
conclusions evaluate. -/
theorem nms_result_subset_and_max_iou_witness :
    (∀ b ∈ (⟨[wb1]⟩ : BBoxCollection).boxes,
      b ∈ (⟨[wb1, wb2]⟩ : BBoxCollection).boxes) ∧
    (∀ i j : Fin (⟨[wb1]⟩ : BBoxCollection).boxes.length, i ≠ j →
      ((⟨[wb1]⟩ : BBoxCollection).boxes.get i).iou
        ((⟨[wb1]⟩ : BBoxCollection).boxes.get j) ≤ mkRat 2 5) ∧
    BBoxCollection.applyGlobalNms ⟨[wb1, wb2]⟩ (mkRat 2 5) = .ok ⟨[wb1]⟩ :=
  nms_result_subset_and_max_iou ⟨[wb1, wb2]⟩ (mkRat 2 5) (by decide) ⟨[wb1]⟩ rfl

/-- C7: applying `apply_global_nms` a second time with the same threshold
returns exactly the collection produced by the first application,
including element order. -/
theorem nms_idempotent (c : BBoxCollection) (t : ℚ)
    (hN : ∀ b ∈ c.boxes, b.confidence ≠ F64.nan)
    (r : BBoxCollection) (hr : c.applyGlobalNms t = .ok r) :
    r.applyGlobalNms t = .ok r := by
  rw [BBoxCollection.applyGlobalNms] at hr ⊢
  by_cases he : c.boxes.isEmpty
  · rw [BBoxCollection.applyNms, if_pos he] at hr
    cases hr
    rw [BBoxCollection.applyNms, if_pos he]
  · rw [BBoxCollection.applyNms, if_neg he] at hr
    cases hs : sortByConf c.boxes with
    | error e => rw [hs] at hr; cases hr
    | ok s =>
      rw [hs] at hr
      cases hr
      set k := nmsSweepF t s.length (s.map fun b => (b, false)) with hk
      have hmapfst : List.map Prod.fst (s.map fun b => (b, false)) = s := by
        rw [List.map_map]
        exact (List.map_congr_left fun a _ => rfl).trans (List.map_id s)
      have hsubs : k.Sublist s := by
        have := nmsSweepF_sublist t s.length (s.map fun b => (b, false))
        rwa [hmapfst] at this
      have hnumS : ∀ x ∈ s, x.confidence ≠ F64.nan := fun x hx =>
        hN x ((sortByConf_perm hs).mem_iff.mp hx)
      have hnum : ∀ b ∈ k, b.confidence ≠ F64.nan := fun b hb =>
        hnumS b (hsubs.subset hb)
      have hsorted : k.Pairwise ConfGe :=
        List.Pairwise.sublist hsubs (sortByConf_sorted hN hs)
      have hover : k.Pairwise (fun a b => a.overlaps b t = false) :=
        List.Pairwise.imp (fun h => decide_eq_false (not_lt.mpr h))
          (nmsSweepF_pairwise t s.length (s.map fun b => (b, false)))
      show BBoxCollection.applyNms ⟨k⟩ t = .ok ⟨k⟩
      by_cases hke : k.isEmpty
      · rw [BBoxCollection.applyNms, if_pos hke]
      · rw [BBoxCollection.applyNms, if_neg hke]
        have hsort2 : sortByConf k = .ok k := sortByConf_of_sorted hnum hsorted
        show (match sortByConf k with
          | .error e => (.error e : Except Unit BBoxCollection)
          | .ok sorted => Except.ok
              (⟨nmsSweepF t sorted.length (sorted.map fun b => (b, false))⟩ :
                BBoxCollection)) = .ok ⟨k⟩
        rw [hsort2]
        show Except.ok
            (⟨nmsSweepF t k.length (k.map fun b => (b, false))⟩ :
              BBoxCollection) = .ok ⟨k⟩
        rw [nmsSweepF_id t k k.length le_rfl hover]

/-- C7 witness: idempotence at the concrete collection `[wb1, wb2]` with
threshold 2/5, whose first NMS pass yields `[wb1]`. -/
theorem nms_idempotent_witness :
    BBoxCollection.applyGlobalNms ⟨[wb1]⟩ (mkRat 2 5) = .ok ⟨[wb1]⟩ :=
  nms_idempotent ⟨[wb1, wb2]⟩ (mkRat 2 5) (by decide) ⟨[wb1]⟩ rfl

/-- C9, amended: `sort_by_confidence` (and `apply_nms`/`apply_global_nms`)
always returns when no confidence is NaN; when a NaN confidence is present
and the collection has at least two boxes, the comparator panics; a
singleton collection is returned unchanged even with NaN confidence (the
sort performs no comparison), so a lone NaN box is kept, not aborted. -/
theorem nms_nan_behavior (c : BBoxCollection) (t : ℚ) :
    ((∀ b ∈ c.boxes, b.confidence ≠ F64.nan) →
      (∃ s, sortByConf c.boxes = .ok s) ∧ ∃ r, c.applyNms t = .ok r) ∧
    ((∃ b ∈ c.boxes, b.confidence = F64.nan) → 2 ≤ c.boxes.length →
      sortByConf c.boxes = .error () ∧ c.applyNms t = .error ()) ∧
    (∀ b, c.boxes = [b] → c.applyNms t = .ok c) := by
  refine ⟨?_, ?_, ?_⟩
  · intro hN
    obtain ⟨s, hs⟩ := sortByConf_total hN
    refine ⟨⟨s, hs⟩, ?_⟩
    by_cases he : c.boxes.isEmpty
    · exact ⟨c, by rw [BBoxCollection.applyNms, if_pos he]⟩
    · refine ⟨⟨nmsSweepF t s.length (s.map fun b => (b, false))⟩, ?_⟩
      rw [BBoxCollection.applyNms, if_neg he, hs]
  · intro hnan hlen
    have hsort := sortByConf_err hnan hlen
    refine ⟨hsort, ?_⟩
    have hne : ¬ c.boxes.isEmpty := by
      intro he
      rw [List.isEmpty_iff.mp he] at hlen
      simp at hlen
    rw [BBoxCollection.applyNms, if_neg hne, hsort]
  · intro b h
    rcases c with ⟨bs⟩
    have h2 : bs = [b] := h
    subst h2
    rfl

/-- C9 witness: with two boxes, one of NaN confidence, the sort and the
whole NMS sweep panic. -/
theorem nms_nan_behavior_witness :
    sortByConf [wb1, nanBox] = .error () ∧
    BBoxCollection.applyNms ⟨[wb1, nanBox]⟩ (mkRat 2 5) = .error () :=
  (nms_nan_behavior ⟨[wb1, nanBox]⟩ (mkRat 2 5)).2.1
    ⟨nanBox, by decide, rfl⟩ (by decide)

/-- C9 counterexample: a single box with NaN confidence does not abort the
sweep; `apply_nms` returns it unchanged (kept), because a one-element sort
performs no comparison. -/
theorem nan_singleton_not_panic :
    nanBox.confidence = F64.nan ∧
    BBoxCollection.applyNms ⟨[nanBox]⟩ (mkRat 1 2) = .ok ⟨[nanBox]⟩ :=
  ⟨rfl, rfl⟩

/-- C4 counterexample: ingestion performs no validation; `push` keeps a box
with negative width instead of dropping it. -/
theorem push_keeps_malformed :
    badBox.width < 0 ∧ badBox ∈ (BBoxCollection.push ⟨[]⟩ badBox).boxes :=
  ⟨by decide, by decide⟩

/-- C4, amended: `push` and `extend` append every box unconditionally —
well-formed or malformed — with no ingestion validation at all. -/
theorem push_extend_append_all (c d : BBoxCollection) (b : BBox) :
    (c.push b).boxes = c.boxes ++ [b] ∧
    (c.extend d).boxes = c.boxes ++ d.boxes :=
  ⟨rfl, rfl⟩

/-- `SpecialAtom` (atomas-core elements module; declared outside src/ and
modelled from its uses in data.rs and the test suite). -/
inductive SpecialAtom where
  | plus
  | minus
deriving DecidableEq, Repr

/-- `ElementType` (atomas-core elements module). -/
inductive ElementType where
  | periodic (n : Nat)
  | special (s : SpecialAtom)
deriving DecidableEq, Repr

/-- `Id` of an element (modelled from its uses: one- or two-character
symbols). -/
inductive ElemId where
  | single (c : Char)
  | pair (a b : Char)
deriving DecidableEq, Repr

/-- `Element` (atomas-core): id, type, display name and RGB color. -/
structure Element where
  id : ElemId
  element_type : ElementType
  name : String
  rgb : Nat × Nat × Nat
deriving DecidableEq, Repr

/-- `PlayerAtomConfig` (config.rs). -/
structure PlayerAtomConfig where
  center_tolerance : ℚ
  size_threshold : Nat × Nat
deriving DecidableEq, Repr

/-- `RingDetectionConfig` (config.rs). -/
structure RingDetectionConfig where
  max_ring_elements : Nat
  angle_tolerance : ℚ
  radius_range : ℚ × ℚ
deriving DecidableEq, Repr

/-- The fields of `DetectionConfig` (config.rs) consumed by the modelled
pipeline; template, path and visualization fields belong to external
collaborators. -/
structure DetectionConfig where
  global_nms_threshold : ℚ
  player_atom_detection : PlayerAtomConfig
  ring_detection : RingDetectionConfig
deriving DecidableEq, Repr

/-- The center-distance test of `classify_detections`: the source compares
`sqrt(dx^2 + dy^2) < tolerance * min(W, H)` on `f32`; for a nonnegative
radius this is equivalent to the squared comparison used here, which keeps
the definition executable in `ℚ`. -/
def isCenterCandidate (cfg : DetectionConfig) (W H : Nat) (b : BBox) : Bool :=
  let c := b.center
  let dx : ℚ := (c.1 : ℚ) - (W : ℚ) / 2
  let dy : ℚ := (c.2 : ℚ) - (H : ℚ) / 2
  let radius : ℚ := cfg.player_atom_detection.center_tolerance * (min W H : Nat)
  decide (dx * dx + dy * dy < radius * radius)

/-- One step of `Iterator::max_by` with comparator
`a.2.partial_cmp(&b.2).unwrap()` over the player-candidate triples (the
third component is the box confidence, so the comparison is on
confidences); the later element wins ties, as in Rust. -/
def maxByConfGo (acc : Element × BBox) :
    List (Element × BBox) → Except Unit (Element × BBox)
  | [] => .ok acc
  | x :: rest =>
      match acc.2.confidence.pcmp x.2.confidence with
      | none => .error ()
      | some o =>
          if o = Ordering.gt then maxByConfGo acc rest
          else maxByConfGo x rest

/-- `player_candidates.into_iter().max_by(..)` of `classify_detections`. -/
def maxByConf : List (Element × BBox) → Except Unit (Option (Element × BBox))
  | [] => .ok none
  | x :: rest =>
      match maxByConfGo x rest with
      | .error e => .error e
      | .ok m => .ok (some m)

/-- Stable insertion by ascending angle key.  The `angle` parameter
abstracts the exact `atan2` values of `calculate_angle_from_center`
(`atan2` is total on the finite inputs, so the sort comparator's `unwrap`
never panics; the claims hold for every angle assignment). -/
def insertByAngle (angle : BBox → ℚ) (a : Element × BBox) :
    List (Element × BBox) → List (Element × BBox)
  | [] => [a]
  | b :: rest =>
      if compare (angle a.2) (angle b.2) = Ordering.gt then
        b :: insertByAngle angle a rest
      else a :: b :: rest

/-- The stable angle sort of `classify_detections`. -/
def sortByAngle (angle : BBox → ℚ) :
    List (Element × BBox) → List (Element × BBox)
  | [] => []
  | a :: rest => insertByAngle angle a (sortByAngle angle rest)

/-- `GameStateDetector::classify_detections`: partition the pairs by the
center-distance test (the single loop of the source equals the two
order-preserving `filter`s used here), select the best player candidate
with `max_by`, sort ring members by angle and truncate to
`max_ring_elements`. -/
def classifyDetections (cfg : DetectionConfig) (angle : BBox → ℚ)
    (pairs : List (Element × BBox)) (W H : Nat) :
    Except Unit (List (Element × BBox) × Option (Element × BBox)) :=
  let ringMembers := pairs.filter (fun p => !(isCenterCandidate cfg W H p.2))
  let candidates := pairs.filter (fun p => isCenterCandidate cfg W H p.2)
  match maxByConf candidates with
  | .error e => .error e
  | .ok player =>
      .ok ((sortByAngle angle ringMembers).take
        cfg.ring_detection.max_ring_elements, player)

/-- `HashMap::insert` on the metadata map: replaces any previous binding
of the key. -/
def hmInsert (k v : String) (m : List (String × String)) :
    List (String × String) :=
  (k, v) :: m.filter (fun p => p.1 != k)

/-- Debug formatting of `ElementType` (`format!` with the Debug formatter),
as stored in the `element_type` metadata entry. -/
def elementTypeStr : ElementType → String
  | .periodic n => "Periodic(" ++ toString n ++ ")"
  | .special .plus => "Special(Plus)"
  | .special .minus => "Special(Minus)"

/-- The per-detection tagging of `detect_from_mat`: set `class_id`,
`color` and the `element_type` metadata entry. -/
def tagBox (e : Element) (b : BBox) : BBox :=
  { b with
    class_id := e.name
    color := e.rgb
    metadata :=
      hmInsert "element_type" (elementTypeStr e.element_type) b.metadata }

/-- The fields of `DetectionResult` relevant to the claims (statistics and
timing omitted; visualization is an external side effect). -/
structure DetectionResult where
  ring_elements : List (Element × BBox)
  player_atom : Option (Element × BBox)
  all_detections : BBoxCollection
deriving DecidableEq, Repr

/-- `GameStateDetector::detect_from_mat`, with the external template
matcher abstracted as `inputs`, the association of each element to its raw
detections.  Per element, the raw boxes are tagged and accumulated both
into `all_detections` and — paired with the element — into
`element_bbox_pairs`; global NMS is applied to `all_detections`, and
`classify_detections` is then called on the pre-NMS `element_bbox_pairs`,
exactly as in the source. -/
def detectFromMat (cfg : DetectionConfig) (angle : BBox → ℚ)
    (inputs : List (Element × List BBox)) (W H : Nat) :
    Except Unit DetectionResult :=
  let tagged := inputs.map (fun p => (p.1, p.2.map (tagBox p.1)))
  let all_detections : BBoxCollection := ⟨(tagged.map (fun p => p.2)).flatten⟩
  let element_bbox_pairs :=
    (tagged.map (fun p => p.2.map (fun b => (p.1, b)))).flatten
  match all_detections.applyGlobalNms cfg.global_nms_threshold with
  | .error e => .error e
  | .ok nmsed =>
      match classifyDetections cfg angle element_bbox_pairs W H with
      | .error e => .error e
      | .ok rp => .ok ⟨rp.1, rp.2, nmsed⟩

theorem F64.pcmp_ok {a b : F64} (ha : a ≠ F64.nan) (hb : b ≠ F64.nan) :
    F64.pcmp a b = some (compare a.toQ b.toQ) := by
  cases a with
  | nan => exact absurd rfl ha
  | val qa =>
    cases b with
    | nan => exact absurd rfl hb
    | val qb => rfl

theorem length_filter_partition {α : Type} (p : α → Bool) :
    ∀ l : List α,
      (l.filter p).length + (l.filter (fun a => !(p a))).length = l.length
  | [] => rfl
  | a :: l => by
      by_cases h : p a
      · rw [List.filter_cons_of_pos h,
          List.filter_cons_of_neg (by simp [h])]
        have := length_filter_partition p l
        simp only [List.length_cons]
        omega
      · rw [List.filter_cons_of_neg (by simpa using h),
          List.filter_cons_of_pos (by simpa using h)]
        have := length_filter_partition p l
        simp only [List.length_cons]
        omega

theorem maxByConfGo_spec :
    ∀ {l : List (Element × BBox)} {acc : Element × BBox},
      acc.2.confidence ≠ F64.nan →
      (∀ p ∈ l, (p : Element × BBox).2.confidence ≠ F64.nan) →
      ∃ m, maxByConfGo acc l = .ok m ∧
        (m = acc ∨ m ∈ l) ∧
        acc.2.confidence.toQ ≤ m.2.confidence.toQ ∧
        ∀ x ∈ l, (x : Element × BBox).2.confidence.toQ ≤ m.2.confidence.toQ
  | [], acc, _, _ => ⟨acc, rfl, Or.inl rfl, le_refl _, by simp⟩
  | x :: rest, acc, hacc, hl => by
      have hx := hl x (List.mem_cons_self x rest)
      have hrest : ∀ p ∈ rest, (p : Element × BBox).2.confidence ≠ F64.nan :=
        fun p hp => hl p (List.mem_cons_of_mem x hp)
      simp only [maxByConfGo, F64.pcmp_ok hacc hx]
      by_cases ho : compare acc.2.confidence.toQ x.2.confidence.toQ =
          Ordering.gt
      · rw [if_pos ho]
        obtain ⟨m, hm, hmem, hle, hall⟩ := maxByConfGo_spec hacc hrest
        refine ⟨m, hm, ?_, hle, ?_⟩
        · rcases hmem with h | h
          · exact Or.inl h
          · exact Or.inr (List.mem_cons_of_mem x h)
        · intro y hy
          rcases List.mem_cons.mp hy with hy | hy
          · subst hy
            exact le_trans (le_of_lt (compare_gt_iff_gt.mp ho)) hle
          · exact hall y hy
      · rw [if_neg ho]
        obtain ⟨m, hm, hmem, hle, hall⟩ := maxByConfGo_spec hx hrest
        refine ⟨m, hm, ?_, ?_, ?_⟩
        · rcases hmem with h | h
          · exact Or.inr (h ▸ List.mem_cons_self x rest)
          · exact Or.inr (List.mem_cons_of_mem x h)
        · exact le_trans (le_of_not_lt fun hlt =>
            ho (compare_gt_iff_gt.mpr hlt)) hle
        · intro y hy
          rcases List.mem_cons.mp hy with hy | hy
          · subst hy; exact hle
          · exact hall y hy

theorem maxByConf_spec {l : List (Element × BBox)}
    (hl : ∀ p ∈ l, (p : Element × BBox).2.confidence ≠ F64.nan) :
    (l = [] → maxByConf l = .ok none) ∧
    (l ≠ [] → ∃ m, maxByConf l = .ok (some m) ∧ m ∈ l ∧
      ∀ x ∈ l, (x : Element × BBox).2.confidence.toQ ≤
        m.2.confidence.toQ) := by
  constructor
  · intro h; subst h; rfl
  · intro h
    match l, h with
    | x :: rest, _ =>
      have hx := hl x (List.mem_cons_self x rest)
      have hrest : ∀ p ∈ rest, (p : Element × BBox).2.confidence ≠ F64.nan :=
        fun p hp => hl p (List.mem_cons_of_mem x hp)
      obtain ⟨m, hm, hmem, hle, hall⟩ := maxByConfGo_spec hx hrest
      refine ⟨m, ?_, ?_, ?_⟩
      · simp only [maxByConf, hm]
      · rcases hmem with h | h
        · exact h ▸ List.mem_cons_self x rest
        · exact List.mem_cons_of_mem x h
      · intro y hy
        rcases List.mem_cons.mp hy with hy | hy
        · subst hy; exact hle
        · exact hall y hy

theorem insertByAngle_perm (angle : BBox → ℚ) (a : Element × BBox) :
    ∀ l : List (Element × BBox), (insertByAngle angle a l).Perm (a :: l)
  | [] => List.Perm.refl _
  | b :: rest => by
      simp only [insertByAngle]
      by_cases h : compare (angle a.2) (angle b.2) = Ordering.gt
      · rw [if_pos h]
        exact ((insertByAngle_perm angle a rest).cons b).trans
          (List.Perm.swap a b rest)
      · rw [if_neg h]

theorem sortByAngle_perm (angle : BBox → ℚ) :
    ∀ l : List (Element × BBox), (sortByAngle angle l).Perm l
  | [] => List.Perm.refl _
  | a :: rest =>
      (insertByAngle_perm angle a (sortByAngle angle rest)).trans
        ((sortByAngle_perm angle rest).cons a)

/-- Concrete element used by witnesses. -/
def e1 : Element :=
  { id := .single 'H', element_type := .periodic 1,
    name := "Hydrogen", rgb := (255, 255, 255) }

/-- Second concrete element used by witnesses. -/
def e2 : Element :=
  { id := .single 'C', element_type := .periodic 6,
    name := "Carbon", rgb := (80, 80, 80) }

/-- Concrete configuration mirroring `DetectionConfig::default` (NMS
threshold 0.2, center tolerance 0.1, ring capacity 18). -/
def cfgW : DetectionConfig :=
  { global_nms_threshold := mkRat 1 5,
    player_atom_detection :=
      { center_tolerance := mkRat 1 10, size_threshold := (30, 200) },
    ring_detection :=
      { max_ring_elements := 18, angle_tolerance := mkRat 1 5,
        radius_range := (100, 400) } }

/-- The same configuration with ring capacity 0, exposing the silent
truncation of ring members. -/
def cfg0 : DetectionConfig :=
  { cfgW with ring_detection :=
      { cfgW.ring_detection with max_ring_elements := 0 } }

/-- Raw detection with confidence 0.9 at the frame corner. -/
def rb1 : BBox :=
  { x := 0, y := 0, width := 10, height := 10,
    confidence := F64.val (mkRat 9 10) }

/-- Raw detection with confidence 0.8, heavily overlapping `rb1`
(IoU 81/119 ≈ 0.68). -/
def rb2 : BBox :=
  { x := 1, y := 1, width := 10, height := 10,
    confidence := F64.val (mkRat 4 5) }

/-- Box far from the centroid of a 100×100 frame. -/
def farBox : BBox :=
  { x := 0, y := 0, width := 10, height := 10,
    confidence := F64.val (mkRat 9 10) }

/-- Box centred on the centroid of a 100×100 frame. -/
def ctrBox : BBox :=
  { x := 45, y := 45, width := 10, height := 10,
    confidence := F64.val (mkRat 3 5) }

/-- C6, amended: provided the number of ring members does not exceed
`max_ring_elements` (otherwise `truncate` silently discards the excess),
`classify_detections` partitions its input completely: the returned ring
is a permutation of the non-center pairs, ring count plus
center-candidate count equals the input length (the candidates split into
one chosen center and the dropped rest), a center is chosen exactly when
a candidate exists, the chosen center is a candidate of maximal
confidence, and no center candidate appears among the ring elements. -/
theorem classify_partitions (cfg : DetectionConfig) (angle : BBox → ℚ)
    (pairs : List (Element × BBox)) (W H : Nat)
    (hN : ∀ p ∈ pairs, (p : Element × BBox).2.confidence ≠ F64.nan)
    (hcap : (pairs.filter
        (fun p => !(isCenterCandidate cfg W H p.2))).length ≤
      cfg.ring_detection.max_ring_elements)
    (ring : List (Element × BBox)) (player : Option (Element × BBox))
    (h : classifyDetections cfg angle pairs W H = .ok (ring, player)) :
    ring.Perm (pairs.filter (fun p => !(isCenterCandidate cfg W H p.2))) ∧
    ring.length +
      (pairs.filter (fun p => isCenterCandidate cfg W H p.2)).length =
      pairs.length ∧
    (player = none ↔
      pairs.filter (fun p => isCenterCandidate cfg W H p.2) = []) ∧
    (∀ c, player = some c →
      c ∈ pairs.filter (fun p => isCenterCandidate cfg W H p.2) ∧
      ∀ d ∈ pairs.filter (fun p => isCenterCandidate cfg W H p.2),
        (d : Element × BBox).2.confidence.toQ ≤ c.2.confidence.toQ) ∧
    (∀ p ∈ ring,
      isCenterCandidate cfg W H (p : Element × BBox).2 = false) := by
  have hNc : ∀ p ∈ pairs.filter (fun p => isCenterCandidate cfg W H p.2),
      (p : Element × BBox).2.confidence ≠ F64.nan :=
    fun p hp => hN p (List.mem_of_mem_filter hp)
  simp only [classifyDetections] at h
  cases hmb : maxByConf
      (pairs.filter (fun p => isCenterCandidate cfg W H p.2)) with
  | error e => rw [hmb] at h; cases h
  | ok pl =>
    rw [hmb] at h
    simp only [Except.ok.injEq, Prod.mk.injEq] at h
    obtain ⟨hring, hplayer⟩ := h
    subst hplayer
    have hsp := sortByAngle_perm angle
      (pairs.filter (fun p => !(isCenterCandidate cfg W H p.2)))
    have htake : (sortByAngle angle
        (pairs.filter (fun p => !(isCenterCandidate cfg W H p.2)))).take
        cfg.ring_detection.max_ring_elements =
        sortByAngle angle
          (pairs.filter (fun p => !(isCenterCandidate cfg W H p.2))) :=
      List.take_of_length_le (hsp.length_eq ▸ hcap)
    rw [htake] at hring
    subst hring
    refine ⟨hsp, ?_, ?_, ?_, ?_⟩
    · rw [hsp.length_eq, Nat.add_comm]
      exact length_filter_partition _ pairs
    · constructor
      · intro hnone
        by_contra hne
        obtain ⟨m, hm, _, _⟩ := (maxByConf_spec hNc).2 hne
        rw [hmb] at hm
        cases hm
        cases hnone
      · intro hnil
        have := (maxByConf_spec hNc).1 hnil
        rw [hmb] at this
        cases this
        rfl
    · intro c hc
      subst hc
      have hne : pairs.filter (fun p => isCenterCandidate cfg W H p.2) ≠
          [] := by
        intro hnil
        have := (maxByConf_spec hNc).1 hnil
        rw [hmb] at this
        cases this
      obtain ⟨m, hm, hmem, hall⟩ := (maxByConf_spec hNc).2 hne
      rw [hmb] at hm
      cases hm
      exact ⟨hmem, hall⟩
    · intro p hp
      have := List.mem_filter.mp (hsp.mem_iff.mp hp)
      simpa using this.2

/-- C6 witness: on a 100×100 frame with default-style configuration, one
far pair and one centred pair are split into one ring member and the
chosen center, and all conclusions evaluate. -/
theorem classify_partitions_witness :
    ([(e1, farBox)] : List (Element × BBox)).Perm
      ([(e1, farBox), (e2, ctrBox)].filter
        (fun p => !(isCenterCandidate cfgW 100 100 p.2))) ∧
    ([(e1, farBox)] : List (Element × BBox)).length +
      ([(e1, farBox), (e2, ctrBox)].filter
        (fun p => isCenterCandidate cfgW 100 100 p.2)).length =
      [(e1, farBox), (e2, ctrBox)].length ∧
    ((some (e2, ctrBox) : Option (Element × BBox)) = none ↔
      [(e1, farBox), (e2, ctrBox)].filter
        (fun p => isCenterCandidate cfgW 100 100 p.2) = []) ∧
    (∀ c, (some (e2, ctrBox) : Option (Element × BBox)) = some c →
      c ∈ [(e1, farBox), (e2, ctrBox)].filter
        (fun p => isCenterCandidate cfgW 100 100 p.2) ∧
      ∀ d ∈ [(e1, farBox), (e2, ctrBox)].filter
        (fun p => isCenterCandidate cfgW 100 100 p.2),
        (d : Element × BBox).2.confidence.toQ ≤ c.2.confidence.toQ) ∧
    (∀ p ∈ ([(e1, farBox)] : List (Element × BBox)),
      isCenterCandidate cfgW 100 100 (p : Element × BBox).2 = false) :=
  classify_partitions cfgW (fun _ => 0) [(e1, farBox), (e2, ctrBox)]
    100 100 (by decide) (by decide) [(e1, farBox)] (some (e2, ctrBox))
    (by decide)

/-- C6 counterexample: with ring capacity 0 the single far pair is
silently discarded by `truncate`: the result is an empty ring and no
center, so the pair lands in none of the three bins and the counts sum to
0, not to the input length 1. -/
theorem classify_truncation_loses_pairs :
    classifyDetections cfg0 (fun _ => 0) [(e1, farBox)] 100 100 =
      .ok ([], none) ∧
    isCenterCandidate cfg0 100 100 farBox = false ∧
    (0 : Nat) + 0 + 0 ≠ [(e1, farBox)].length :=
  ⟨by decide, by decide, by decide⟩

/-- C1: `detect_from_mat` collects `element_bbox_pairs` before applying
global NMS and passes the unfiltered pairs to `classify_detections`, so
suppressed boxes reach classification and the ring.  In this run the
tagged copy of `rb2` is suppressed from `all_detections` by global NMS
(IoU 81/119 > 0.2 against the higher-confidence `rb1`) yet it appears
among the returned ring elements, contradicting the claimed data flow. -/
theorem ring_contains_suppressed_box :
    detectFromMat cfgW (fun _ => 0) [(e1, [rb1]), (e2, [rb2])] 1000 1000 =
      .ok ⟨[(e1, tagBox e1 rb1), (e2, tagBox e2 rb2)], none,
        ⟨[tagBox e1 rb1]⟩⟩ ∧
    (e2, tagBox e2 rb2) ∈ [(e1, tagBox e1 rb1), (e2, tagBox e2 rb2)] ∧
    tagBox e2 rb2 ∉ [tagBox e1 rb1] :=
  ⟨by decide, by decide, by decide⟩

/-- `Node<T>` (circularlist.rs): a value plus optional `next`/`prev`
references; the `Rc<RefCell<..>>` handles are modelled as indices into an
allocation arena. -/
structure CNode (α : Type) where
  value : α
  next : Option Nat
  prev : Option Nat
deriving DecidableEq, Repr

/-- `CircularList<T>`: the arena of allocated nodes (in allocation
order), the optional head index, and the tracked size. -/
structure CircularList (α : Type) where
  nodes : List (CNode α)
  head : Option Nat
  size : Nat
deriving DecidableEq, Repr

/-- `CircularList::new`. -/
def CircularList.new {α : Type} : CircularList α := ⟨[], none, 0⟩

/-- Dereference a node's `next` pointer; `none` models an `unwrap` panic
on a null pointer or a dangling index. -/
def nextOf {α : Type} (ns : List (CNode α)) (i : Nat) : Option Nat :=
  ns[i]?.bind CNode.next

/-- Dereference a node's `prev` pointer. -/
def prevOf {α : Type} (ns : List (CNode α)) (i : Nat) : Option Nat :=
  ns[i]?.bind CNode.prev

/-- The position walk of `insert`: `index` successive `next` steps. -/
def walkNext {α : Type} (ns : List (CNode α)) : Nat → Nat → Option Nat
  | 0, cur => some cur
  | k + 1, cur =>
      match nextOf ns cur with
      | none => none
      | some nxt => walkNext ns k nxt

/-- Assignment to a node's `next` field through `borrow_mut`. -/
def setNext {α : Type} (ns : List (CNode α)) (i j : Nat) :
    Option (List (CNode α)) :=
  ns[i]?.map (fun nd => ns.set i { nd with next := some j })

/-- Assignment to a node's `prev` field through `borrow_mut`. -/
def setPrev {α : Type} (ns : List (CNode α)) (i j : Nat) :
    Option (List (CNode α)) :=
  ns[i]?.map (fun nd => ns.set i { nd with prev := some j })

/-- `CircularList::insert`: on an empty list, allocate a single
self-linked node and make it the head (the index is ignored); otherwise
start the walk at `head.next`, take `index` steps, splice the new node
between `current` and `current.next` (the new node's links are set from
the values read before the splice, then `current.next` and `next.prev`
are redirected, in source order), and reassign the head exactly when
`index == 0`.  `none` models an `unwrap` panic; `size` is incremented in
all cases. -/
def CircularList.insert {α : Type} (l : CircularList α) (value : α)
    (index : Nat) : Option (CircularList α) :=
  let newId := l.nodes.length
  match l.head with
  | none =>
      some { nodes := l.nodes ++ [⟨value, some newId, some newId⟩],
             head := some newId, size := l.size + 1 }
  | some h =>
      match nextOf l.nodes h with
      | none => none
      | some start =>
          match walkNext l.nodes index start with
          | none => none
          | some current =>
              match nextOf l.nodes current with
              | none => none
              | some nxt =>
                  match setNext
                      (l.nodes ++ [⟨value, some nxt, some current⟩])
                      current newId with
                  | none => none
                  | some ns1 =>
                      match setPrev ns1 nxt newId with
                      | none => none
                      | some ns2 =>
                          some { nodes := ns2,
                                 head := if index = 0 then some newId
                                   else l.head,
                                 size := l.size + 1 }

/-- `CircularList::len`: returns the tracked size. -/
def CircularList.len {α : Type} (l : CircularList α) : Nat := l.size

/-- `CircularList::push`: `insert(value, self.size)`. -/
def CircularList.push {α : Type} (l : CircularList α) (value : α) :
    Option (CircularList α) :=
  l.insert value l.size

/-- `CircularList::is_empty`. -/
def CircularList.isEmptyL {α : Type} (l : CircularList α) : Bool :=
  l.size == 0

/-- One revolution of `CircularListIterator` starting at `cur` with end
pointer `endId`: emit the current value, advance along `next`, stop when
the end (initial head) is reached again.  `fuel` bounds the walk (a
well-formed cycle of `n` nodes needs exactly `n` emissions and the caller
passes the arena size). -/
def iterGo {α : Type} (ns : List (CNode α)) (endId : Nat) :
    Nat → Nat → List α
  | 0, _ => []
  | fuel + 1, cur =>
      match ns[cur]? with
      | none => []
      | some nd =>
          nd.value ::
            (match nd.next with
             | none => []
             | some nxt =>
                 if nxt = endId then [] else iterGo ns endId fuel nxt)

/-- `CircularList::iter`, collected into a list. -/
def CircularList.iterValues {α : Type} (l : CircularList α) : List α :=
  match l.head with
  | none => []
  | some h => iterGo l.nodes h l.nodes.length h

/-- One link of the cycle: `a`'s `next` points to `b` and `b`'s `prev`
points back to `a`. -/
def RingLink {α : Type} (ns : List (CNode α)) (a b : Nat) : Prop :=
  nextOf ns a = some b ∧ prevOf ns b = some a

/-- `ord` enumerates node ids in cycle order: consecutive entries are
linked, and the last entry links back to the first. -/
def CycAdj {α : Type} (ns : List (CNode α)) (ord : List Nat) : Prop :=
  List.Chain' (RingLink ns) ord ∧
  ∀ a ∈ ord.getLast?, ∀ b ∈ ord.head?, RingLink ns a b

/-- Well-formedness of a circular list: the witness `ord` enumerates the
arena indices exactly once in cycle order starting at the head, the
tracked size equals the cycle length (and the arena size), and
`next`/`prev` step along the cycle. -/
def IsRing {α : Type} (l : CircularList α) (ord : List Nat) : Prop :=
  ord.Nodup ∧
  (∀ i, i ∈ ord ↔ i < l.nodes.length) ∧
  l.head = ord.head? ∧
  l.size = ord.length ∧
  l.nodes.length = ord.length ∧
  CycAdj l.nodes ord

/-- The lists reachable from `CircularList::new` by `insert` (and hence
also `push`, which delegates to `insert`). -/
inductive Reachable {α : Type} : CircularList α → Prop
  | base : Reachable CircularList.new
  | step {l l' : CircularList α} (v : α) (i : Nat) :
      Reachable l → l.insert v i = some l' → Reachable l'

/-- The node id at cyclic position `k` of the order witness. -/
def cyc (ord : List Nat) (k : Nat) : Nat := ord.getD (k % ord.length) 0

theorem cyc_congr_mod {ord : List Nat} {k m : Nat}
    (h : k % ord.length = m % ord.length) : cyc ord k = cyc ord m := by
  simp only [cyc, h]

theorem cyc_get {ord : List Nat} {k : Nat} (hk : k < ord.length) :
    cyc ord k = ord.get ⟨k, hk⟩ := by
  simp only [cyc, Nat.mod_eq_of_lt hk, List.getD_eq_getElem _ _ hk,
    List.get_eq_getElem]

theorem cyc_mem {ord : List Nat} (hne : ord ≠ []) (k : Nat) :
    cyc ord k ∈ ord := by
  have hlen : 0 < ord.length := List.length_pos.mpr hne
  have hk : k % ord.length < ord.length := Nat.mod_lt _ hlen
  rw [cyc, List.getD_eq_getElem _ _ hk]
  exact List.getElem_mem hk

/-- Index-level reading of `CycAdj`: every cyclic position is linked to
its successor. -/
theorem cycAdj_cyc {α : Type} {ns : List (CNode α)} {ord : List Nat}
    (hC : CycAdj ns ord) (hne : ord ≠ []) (k : Nat) :
    RingLink ns (cyc ord k) (cyc ord (k + 1)) := by
  have hlen : 0 < ord.length := List.length_pos.mpr hne
  have hred : cyc ord k = cyc ord (k % ord.length) :=
    cyc_congr_mod (Nat.mod_mod _ _).symm
  have hred1 : cyc ord (k + 1) = cyc ord (k % ord.length + 1) :=
    cyc_congr_mod (Nat.mod_add_mod k ord.length 1).symm
  rw [hred, hred1]
  set m := k % ord.length with hm
  have hmlt : m < ord.length := Nat.mod_lt _ hlen
  by_cases hsucc : m + 1 < ord.length
  · rw [cyc_get hmlt, cyc_get hsucc]
    exact List.chain'_iff_get.mp hC.1 m (by omega)
  · have hlast : ord.getLast? = some (cyc ord m) := by
      rw [List.getLast?_eq_getElem?, show ord.length - 1 = m from by omega,
        List.getElem?_eq_getElem hmlt, cyc, Nat.mod_eq_of_lt hmlt,
        List.getD_eq_getElem _ _ hmlt]
    have hhead : ord.head? = some (cyc ord 0) := by
      rw [List.head?_eq_getElem?, List.getElem?_eq_getElem hlen, cyc,
        Nat.zero_mod, List.getD_eq_getElem _ _ hlen]
    have hcyc1 : cyc ord (m + 1) = cyc ord 0 :=
      cyc_congr_mod (by
        rw [show m + 1 = ord.length from by omega, Nat.mod_self,
          Nat.zero_mod])
    rw [hcyc1]
    exact hC.2 _ hlast _ hhead

/-- The position walk follows the cycle: `k` steps from cyclic position
`j` land at cyclic position `j + k`. -/
theorem walk_cyc {α : Type} {ns : List (CNode α)} {ord : List Nat}
    (hC : CycAdj ns ord) (hne : ord ≠ []) :
    ∀ (k j : Nat), walkNext ns k (cyc ord j) = some (cyc ord (j + k))
  | 0, j => by simp [walkNext]
  | k + 1, j => by
      have hlink := cycAdj_cyc hC hne j
      simp only [walkNext, hlink.1]
      rw [walk_cyc hC hne k (j + 1),
        show j + 1 + k = j + (k + 1) from by omega]

/-- `CycAdj` is invariant under rotating the order witness by one. -/
theorem cycAdj_rotate_one {α : Type} {ns : List (CNode α)} :
    ∀ {ord : List Nat}, CycAdj ns ord → CycAdj ns (ord.rotate 1)
  | [], h => by simpa [List.rotate] using h
  | [a], h => by simpa [List.rotate] using h
  | a :: b :: tl, h => by
      rw [List.rotate_cons_succ, List.rotate_zero]
      have hch := List.chain'_cons.mp h.1
      constructor
      · rw [List.chain'_append]
        refine ⟨hch.2, List.chain'_singleton a, ?_⟩
        intro x hx y hy
        have hy2 : a = y := by simpa using hy
        subst hy2
        exact h.2 x (by rw [List.getLast?_cons_cons]; exact hx) a rfl
      · intro x hx y hy
        have hx2 : a = x := by
          rw [List.getLast?_concat] at hx
          simpa using hx
        have hy2 : b = y := by
          rw [List.cons_append, List.head?_cons] at hy
          simpa using hy
        subst hx2
        subst hy2
        exact hch.1

/-- `CycAdj` is invariant under arbitrary rotation. -/
theorem cycAdj_rotate {α : Type} {ns : List (CNode α)} {ord : List Nat}
    (h : CycAdj ns ord) : ∀ m, CycAdj ns (ord.rotate m)
  | 0 => by simpa using h
  | m + 1 => by
      have := cycAdj_rotate_one (cycAdj_rotate h m)
      rwa [List.rotate_rotate] at this

theorem setNext_eq_modify {α : Type} (ns : List (CNode α)) {i : Nat}
    (h : i < ns.length) (j : Nat) :
    setNext ns i j =
      some (List.modify (fun nd => { nd with next := some j }) i ns) := by
  rw [setNext, List.getElem?_eq_getElem h]
  apply congrArg some
  apply List.ext_getElem?
  intro m
  rw [List.getElem?_set, List.getElem?_modify]
  by_cases him : i = m
  · subst him
    simp [List.getElem?_eq_getElem h, h]
  · simp [him]

theorem setPrev_eq_modify {α : Type} (ns : List (CNode α)) {i : Nat}
    (h : i < ns.length) (j : Nat) :
    setPrev ns i j =
      some (List.modify (fun nd => { nd with prev := some j }) i ns) := by
  rw [setPrev, List.getElem?_eq_getElem h]
  apply congrArg some
  apply List.ext_getElem?
  intro m
  rw [List.getElem?_set, List.getElem?_modify]
  by_cases him : i = m
  · subst him
    simp [List.getElem?_eq_getElem h, h]
  · simp [him]

/-- The arena after the splice step of `insert` on a non-empty list: the
new node (linked between `c` and `x`) is appended at index
`ns.length`, then `c.next` and `x.prev` are redirected to it. -/
def spliceArena {α : Type} (ns : List (CNode α)) (v : α) (c x : Nat) :
    List (CNode α) :=
  List.modify (fun nd => { nd with prev := some ns.length }) x
    (List.modify (fun nd => { nd with next := some ns.length }) c
      (ns ++ [⟨v, some x, some c⟩]))

theorem spliceArena_length {α : Type} (ns : List (CNode α)) (v : α)
    (c x : Nat) : (spliceArena ns v c x).length = ns.length + 1 := by
  simp [spliceArena]

theorem spliceArena_next_c {α : Type} (ns : List (CNode α)) (v : α)
    {c : Nat} (x : Nat) (hc : c < ns.length) :
    nextOf (spliceArena ns v c x) c = some ns.length := by
  simp only [spliceArena, nextOf, List.getElem?_modify,
    List.getElem?_append, hc, if_pos, List.getElem?_eq_getElem hc]
  by_cases hxc : x = c <;> simp [hxc]

theorem spliceArena_prev_x {α : Type} (ns : List (CNode α)) (v : α)
    (c : Nat) {x : Nat} (hx : x < ns.length) :
    prevOf (spliceArena ns v c x) x = some ns.length := by
  simp only [spliceArena, prevOf, List.getElem?_modify,
    List.getElem?_append, hx, if_pos, List.getElem?_eq_getElem hx]
  by_cases hcx : c = x <;> simp [hcx]

theorem spliceArena_next_new {α : Type} (ns : List (CNode α)) (v : α)
    {c x : Nat} (hc : c < ns.length) (hx : x < ns.length) :
    nextOf (spliceArena ns v c x) ns.length = some x := by
  have hcn : ¬ c = ns.length := by omega
  have hxn : ¬ x = ns.length := by omega
  simp [spliceArena, nextOf, List.getElem?_modify, List.getElem?_append,
    hcn, hxn]

theorem spliceArena_prev_new {α : Type} (ns : List (CNode α)) (v : α)
    {c x : Nat} (hc : c < ns.length) (hx : x < ns.length) :
    prevOf (spliceArena ns v c x) ns.length = some c := by
  have hcn : ¬ c = ns.length := by omega
  have hxn : ¬ x = ns.length := by omega
  simp [spliceArena, prevOf, List.getElem?_modify, List.getElem?_append,
    hcn, hxn]

theorem spliceArena_next_other {α : Type} (ns : List (CNode α)) (v : α)
    {c x i : Nat} (hi : i < ns.length) (hne : i ≠ c) :
    nextOf (spliceArena ns v c x) i = nextOf ns i := by
  have hci : ¬ c = i := fun h => hne h.symm
  simp only [spliceArena, nextOf, List.getElem?_modify,
    List.getElem?_append, hi, if_pos, hci, if_neg, not_false_iff]
  by_cases hxi : x = i <;>
    simp [hxi, List.getElem?_eq_getElem hi]

theorem spliceArena_prev_other {α : Type} (ns : List (CNode α)) (v : α)
    {c x i : Nat} (hi : i < ns.length) (hne : i ≠ x) :
    prevOf (spliceArena ns v c x) i = prevOf ns i := by
  have hxi : ¬ x = i := fun h => hne h.symm
  simp only [spliceArena, prevOf, List.getElem?_modify,
    List.getElem?_append, hi, if_pos, hxi, if_neg, not_false_iff]
  by_cases hci : c = i <;>
    simp [hci, List.getElem?_eq_getElem hi]

/-- Links of the old cycle not incident to the redirected fields survive
the splice. -/
theorem spliceArena_link {α : Type} {ns : List (CNode α)} (v : α)
    {c x a b : Nat} (ha : a < ns.length) (hb : b < ns.length)
    (hac : a ≠ c) (hbx : b ≠ x) (h : RingLink ns a b) :
    RingLink (spliceArena ns v c x) a b :=
  ⟨(spliceArena_next_other ns v ha hac).symm ▸ h.1,
   (spliceArena_prev_other ns v hb hbx).symm ▸ h.2⟩

/-- On a non-empty list, `insert` computes to the spliced arena once the
walk is resolved. -/
theorem insert_eq_splice {α : Type} {l : CircularList α} {hd c x : Nat}
    {strt : Nat} (hh : l.head = some hd) (v : α) (index : Nat)
    (h1 : nextOf l.nodes hd = some strt)
    (h2 : walkNext l.nodes index strt = some c)
    (h3 : nextOf l.nodes c = some x)
    (hc : c < l.nodes.length) (hx : x < l.nodes.length) :
    l.insert v index = some
      { nodes := spliceArena l.nodes v c x,
        head := if index = 0 then some l.nodes.length else l.head,
        size := l.size + 1 } := by
  have hc0 : c < (l.nodes ++ [(⟨v, some x, some c⟩ : CNode α)]).length := by
    rw [List.length_append]; simp; omega
  have hx1 : x < (List.modify (fun nd => { nd with next := some l.nodes.length })
      c (l.nodes ++ [(⟨v, some x, some c⟩ : CNode α)])).length := by
    rw [List.length_modify, List.length_append]; simp; omega
  rw [CircularList.insert]
  simp only [hh, h1, h2, h3, setNext_eq_modify _ hc0 l.nodes.length,
    setPrev_eq_modify _ hx1 l.nodes.length]
  rfl

/-- `insert` on a well-formed non-empty list succeeds, increments the
size, and preserves the single-cycle invariant. -/
theorem insert_ring_nonempty {α : Type} {l : CircularList α}
    {ord : List Nat} (hR : IsRing l ord) {hd : Nat}
    (hh : l.head = some hd) (v : α) (index : Nat) :
    ∃ l' : CircularList α, l.insert v index = some l' ∧
      l'.size = l.size + 1 ∧ ∃ ord', IsRing l' ord' := by
  obtain ⟨hndp, hmem, hhead, hsize, hlenEq, hC⟩ := hR
  have hne : ord ≠ [] := by
    intro h0
    rw [h0] at hhead
    rw [hhead] at hh
    cases hh
  have hlen0 : 0 < ord.length := List.length_pos.mpr hne
  have hlink := cycAdj_cyc hC hne
  set n := ord.length with hn
  set N := l.nodes.length with hN
  have hNn : N = n := hlenEq
  set p := (1 + index) % n with hp
  have hplt : p < n := Nat.mod_lt _ hlen0
  set c := cyc ord (1 + index) with hcdef
  set x := cyc ord (1 + index + 1) with hxdef
  have hog : ∀ k, k < n → cyc ord k = ord.getD k 0 := fun k hk => by
    rw [cyc, Nat.mod_eq_of_lt hk]
  have hcp : c = ord.getD p 0 := rfl
  have hxp : x = cyc ord (p + 1) := by
    rw [hxdef]
    exact cyc_congr_mod (Nat.mod_add_mod (1 + index) n 1).symm
  have hinj : ∀ k1 k2, k1 < n → k2 < n →
      ord.getD k1 0 = ord.getD k2 0 → k1 = k2 := by
    intro k1 k2 hk1 hk2 he
    rw [List.getD_eq_getElem _ _ hk1, List.getD_eq_getElem _ _ hk2] at he
    have h2 : (⟨k1, hk1⟩ : Fin ord.length) = ⟨k2, hk2⟩ :=
      hndp.get_inj_iff.mp (by simpa using he)
    exact congrArg Fin.val h2
  have hd0 : hd = cyc ord 0 := by
    have h0 : ord.head? = some (cyc ord 0) := by
      rw [List.head?_eq_getElem?, List.getElem?_eq_getElem hlen0, cyc,
        Nat.zero_mod, List.getD_eq_getElem _ _ hlen0]
    rw [hhead, h0] at hh
    exact (Option.some_inj.mp hh).symm
  have h1 : nextOf l.nodes hd = some (cyc ord 1) := by
    rw [hd0]
    simpa using (hlink 0).1
  have h2 : walkNext l.nodes index (cyc ord 1) = some c := by
    rw [hcdef]
    simpa [Nat.add_comm] using walk_cyc hC hne index 1
  have h3 : nextOf l.nodes c = some x := (hlink (1 + index)).1
  have hclt : c < N := (hmem c).mp (hcdef ▸ cyc_mem hne (1 + index))
  have hxlt : x < N := (hmem x).mp (hxdef ▸ cyc_mem hne (1 + index + 1))
  -- the new order witness before the head rotation
  have hAlen : (ord.take (p + 1)).length = p + 1 := by
    rw [List.length_take]
    omega
  have hord0len : (ord.take (p + 1) ++ N :: ord.drop (p + 1)).length
      = n + 1 := by
    rw [List.length_append, hAlen, List.length_cons, List.length_drop]
    omega
  have hget : ∀ k, (ord.take (p + 1) ++ N :: ord.drop (p + 1))[k]? =
      if k < p + 1 then ord[k]?
      else if k = p + 1 then some N else ord[k - 1]? := by
    intro k
    rw [List.getElem?_append, hAlen]
    by_cases h1k : k < p + 1
    · rw [if_pos h1k, if_pos h1k, List.getElem?_take, if_pos h1k]
    · rw [if_neg h1k, if_neg h1k]
      by_cases h2k : k = p + 1
      · rw [if_pos h2k, h2k, Nat.sub_self, List.getElem?_cons_zero]
      · rw [if_neg h2k]
        have hk2 : p + 1 < k := by omega
        cases hke : k - (p + 1) with
        | zero => omega
        | succ m =>
          rw [List.getElem?_cons_succ, List.getElem?_drop]
          congr 1
          omega
  have hgetv : ∀ (k : Nat)
      (hk : k < (ord.take (p + 1) ++ N :: ord.drop (p + 1)).length),
      (ord.take (p + 1) ++ N :: ord.drop (p + 1)).get ⟨k, hk⟩ =
      if k < p + 1 then ord.getD k 0
      else if k = p + 1 then N else ord.getD (k - 1) 0 := by
    intro k hk
    have hk2 : k < n + 1 := by
      rw [hord0len] at hk
      exact hk
    have h? := hget k
    rw [List.get_eq_getElem, ← Option.some_inj,
      ← List.getElem?_eq_getElem, h?]
    by_cases h1k : k < p + 1
    · rw [if_pos h1k, if_pos h1k, List.getElem?_eq_getElem (by omega),
        List.getD_eq_getElem _ _ (by omega : k < ord.length)]
    · rw [if_neg h1k, if_neg h1k]
      by_cases h2k : k = p + 1
      · rw [if_pos h2k, if_pos h2k]
      · rw [if_neg h2k, if_neg h2k,
          List.getElem?_eq_getElem (by omega : k - 1 < ord.length),
          List.getD_eq_getElem _ _ (by omega : k - 1 < ord.length)]
  have hNnotin : N ∉ ord := fun hmm => by
    have := (hmem N).mp hmm
    omega
  have hperm0 : (ord.take (p + 1) ++ N :: ord.drop (p + 1)).Perm
      (N :: ord) := by
    refine List.perm_middle.trans ?_
    rw [List.take_append_drop]
  have hnodup0 : (ord.take (p + 1) ++ N :: ord.drop (p + 1)).Nodup :=
    hperm0.nodup_iff.mpr (List.nodup_cons.mpr ⟨hNnotin, hndp⟩)
  -- the spliced arena and the transferred links
  have harena := spliceArena_length l.nodes v c x
  have hlinkT : ∀ k, k < n → k ≠ p → (k + 1) % n ≠ (p + 1) % n →
      RingLink (spliceArena l.nodes v c x) (cyc ord k)
        (cyc ord (k + 1)) := by
    intro k hk hkp hkp1
    refine spliceArena_link v ((hmem _).mp (cyc_mem hne k))
      ((hmem _).mp (cyc_mem hne (k + 1))) ?_ ?_ (hlink k)
    · intro he
      apply hkp
      apply hinj k p hk hplt
      rw [← hog k hk, he, hcp]
    · intro he
      apply hkp1
      apply hinj ((k + 1) % n) ((p + 1) % n) (Nat.mod_lt _ hlen0)
        (Nat.mod_lt _ hlen0)
      have e1 : cyc ord (k + 1) = ord.getD ((k + 1) % n) 0 := rfl
      have e2 : x = ord.getD ((p + 1) % n) 0 := by
        rw [hxp]
        rfl
      rw [← e1, he, e2]
  have hlinkCN : RingLink (spliceArena l.nodes v c x) c N :=
    ⟨spliceArena_next_c l.nodes v x hclt,
     spliceArena_prev_new l.nodes v hclt hxlt⟩
  have hlinkNX : RingLink (spliceArena l.nodes v c x) N x :=
    ⟨spliceArena_next_new l.nodes v hclt hxlt,
     spliceArena_prev_x l.nodes v c hxlt⟩
  -- the chain along the spliced order
  have hchain0 : List.Chain' (RingLink (spliceArena l.nodes v c x))
      (ord.take (p + 1) ++ N :: ord.drop (p + 1)) := by
    rw [List.chain'_iff_get]
    intro i hi
    rw [hord0len] at hi
    simp only [Nat.add_sub_cancel] at hi
    rw [hgetv i (by omega), hgetv (i + 1) (by omega)]
    by_cases hip : i < p
    · -- link inside the prefix: both endpoints are old nodes
      rw [if_pos (by omega), if_pos (by omega)]
      have hcond : (i + 1) % n ≠ (p + 1) % n := by
        rw [Nat.mod_eq_of_lt (show i + 1 < n from by omega)]
        intro he
        rcases Nat.lt_or_ge (p + 1) n with hpn | hpn
        · rw [Nat.mod_eq_of_lt hpn] at he
          omega
        · have hpn2 : p + 1 = n := by omega
          rw [hpn2, Nat.mod_self] at he
          omega
      have hTl := hlinkT i (by omega) (by omega) hcond
      rwa [hog i (by omega), hog (i + 1) (by omega)] at hTl
    · by_cases hip2 : i = p
      · -- the link from c to the new node
        subst hip2
        rw [if_pos (by omega), if_neg (by omega), if_pos rfl, ← hcp]
        exact hlinkCN
      · by_cases hip3 : i = p + 1
        · -- the link from the new node to x
          subst hip3
          rw [if_neg (by omega), if_pos rfl, if_neg (by omega),
            if_neg (by omega)]
          have hxv : x = ord.getD (p + 1) 0 := by
            rw [hxp, hog (p + 1) (by omega : p + 1 < n)]
          rw [Nat.add_sub_cancel, ← hxv]
          exact hlinkNX
        · -- link inside the suffix
          rw [if_neg (by omega), if_neg (by omega), if_neg (by omega),
            if_neg (by omega)]
          have hi1 : p + 1 < i := by omega
          rw [Nat.add_sub_cancel]
          have hcond : (i - 1 + 1) % n ≠ (p + 1) % n := by
            rw [show i - 1 + 1 = i from by omega,
              Nat.mod_eq_of_lt (show i < n from by omega)]
            intro he
            have hle : (p + 1) % n ≤ p + 1 := Nat.mod_le _ _
            omega
          have hTl := hlinkT (i - 1) (by omega) (by omega) hcond
          rwa [hog (i - 1) (by omega),
            show i - 1 + 1 = i from by omega, hog i (by omega)] at hTl
  -- the wrap-around link of the spliced order
  have hwrap0 : ∀ a ∈ (ord.take (p + 1) ++ N :: ord.drop (p + 1)).getLast?,
      ∀ b ∈ (ord.take (p + 1) ++ N :: ord.drop (p + 1)).head?,
        RingLink (spliceArena l.nodes v c x) a b := by
    intro a ha b hb
    rw [Option.mem_def, List.head?_eq_getElem?, hget 0,
      if_pos (show 0 < p + 1 from by omega),
      List.getElem?_eq_getElem hlen0] at hb
    have hbv : b = ord.getD 0 0 := by
      rw [List.getD_eq_getElem _ _ hlen0]
      exact (Option.some_inj.mp hb).symm
    subst hbv
    rw [Option.mem_def, List.getLast?_eq_getElem?, hord0len,
      Nat.add_sub_cancel, hget n,
      if_neg (show ¬ n < p + 1 from by omega)] at ha
    by_cases hpn : p + 1 = n
    · rw [if_pos hpn.symm] at ha
      have hav : a = N := (Option.some_inj.mp ha).symm
      subst hav
      have hx0 : x = ord.getD 0 0 := by
        rw [hxp, hpn, cyc, Nat.mod_self]
      rw [← hx0]
      exact hlinkNX
    · rw [if_neg (show ¬ n = p + 1 from fun hnp => hpn hnp.symm),
        List.getElem?_eq_getElem (show n - 1 < ord.length from by omega)]
        at ha
      have hav : a = ord.getD (n - 1) 0 := by
        rw [List.getD_eq_getElem _ _
          (show n - 1 < ord.length from by omega)]
        exact (Option.some_inj.mp ha).symm
      subst hav
      have hcond : (n - 1 + 1) % n ≠ (p + 1) % n := by
        rw [show n - 1 + 1 = n from by omega, Nat.mod_self]
        intro he
        have h1' : (p + 1) % n = p + 1 := Nat.mod_eq_of_lt (by omega)
        omega
      have hTl := hlinkT (n - 1) (by omega) (by omega) hcond
      rwa [hog (n - 1) (by omega),
        show n - 1 + 1 = n from by omega, cyc, Nat.mod_self] at hTl
  have hCyc0 : CycAdj (spliceArena l.nodes v c x)
      (ord.take (p + 1) ++ N :: ord.drop (p + 1)) := ⟨hchain0, hwrap0⟩
  have hmem0 : ∀ i, i ∈ (ord.take (p + 1) ++ N :: ord.drop (p + 1)) ↔
      i < N + 1 := by
    intro i
    rw [hperm0.mem_iff, List.mem_cons, hmem i]
    omega
  -- assemble, splitting on the head reassignment
  refine ⟨⟨spliceArena l.nodes v c x,
      if index = 0 then some N else l.head, l.size + 1⟩,
    insert_eq_splice hh v index h1 h2 h3 hclt hxlt, rfl, ?_⟩
  by_cases hidx : index = 0
  · refine ⟨(ord.take (p + 1) ++ N :: ord.drop (p + 1)).rotate (p + 1),
      ?_, ?_, ?_, ?_, ?_, cycAdj_rotate hCyc0 (p + 1)⟩
    · exact (List.rotate_perm _ _).nodup_iff.mpr hnodup0
    · intro i
      show _ ↔ i < (spliceArena l.nodes v c x).length
      rw [harena, (List.rotate_perm _ _).mem_iff]
      exact hmem0 i
    · show (if index = 0 then some N else l.head) = _
      rw [if_pos hidx,
        List.head?_rotate (by rw [hord0len]; omega), hget (p + 1),
        if_neg (by omega), if_pos rfl]
    · show l.size + 1 = _
      rw [List.length_rotate, hord0len, hsize]
    · show (spliceArena l.nodes v c x).length = _
      rw [harena, List.length_rotate, hord0len]
      exact congrArg (fun t => t + 1) hlenEq
  · refine ⟨ord.take (p + 1) ++ N :: ord.drop (p + 1),
      hnodup0, ?_, ?_, ?_, ?_, hCyc0⟩
    · intro i
      show _ ↔ i < (spliceArena l.nodes v c x).length
      rw [harena]
      exact hmem0 i
    · show (if index = 0 then some N else l.head) = _
      rw [if_neg hidx, hhead, List.head?_eq_getElem?,
        List.head?_eq_getElem?, hget 0, if_pos (by omega)]
    · show l.size + 1 = _
      rw [hord0len, hsize]
    · show (spliceArena l.nodes v c x).length = _
      rw [harena, hord0len]
      exact congrArg (fun t => t + 1) hlenEq

/-- On a well-formed empty list, `insert` ignores the index and allocates
the single self-linked head node. -/
theorem insert_ring_empty {α : Type} {l : CircularList α} {ord : List Nat}
    (hR : IsRing l ord) (hh : l.head = none) (v : α) (index : Nat) :
    l.insert v index = some ⟨[⟨v, some 0, some 0⟩], some 0, 1⟩ ∧
      IsRing (⟨[⟨v, some 0, some 0⟩], some 0, 1⟩ : CircularList α) [0] ∧
      l.size = 0 := by
  obtain ⟨hndp, hmem, hhead, hsize, hlenEq, hC⟩ := hR
  have hordnil : ord = [] := by
    rw [hh] at hhead
    exact List.head?_eq_none_iff.mp hhead.symm
  have hnodes : l.nodes = [] := by
    apply List.length_eq_zero.mp
    rw [hlenEq, hordnil]
    rfl
  have hsz : l.size = 0 := by
    rw [hsize, hordnil]
    rfl
  refine ⟨?_, ?_, hsz⟩
  · rw [CircularList.insert]
    simp only [hh, hnodes, hsz, List.nil_append, List.length_nil]
  · refine ⟨by simp, ?_, rfl, rfl, rfl, List.chain'_singleton 0, ?_⟩
    · intro i
      simp only [List.mem_singleton, List.length_singleton]
      omega
    · intro a ha b hb
      have ha2 : 0 = a := by simpa using ha
      have hb2 : 0 = b := by simpa using hb
      subst ha2
      subst hb2
      exact ⟨rfl, rfl⟩

/-- Every reachable list is well formed: it is either empty or a single
cycle matching the tracked size. -/
theorem reachable_isRing {α : Type} {l : CircularList α}
    (h : Reachable l) : ∃ ord, IsRing l ord := by
  induction h with
  | base =>
      refine ⟨[], by simp, ?_, rfl, rfl, rfl, List.chain'_nil, ?_⟩
      · intro i
        simp [CircularList.new]
      · intro a ha
        simp at ha
  | step v i hr hins ih =>
      obtain ⟨ord, hR⟩ := ih
      rename_i l l'
      cases hhd : l.head with
      | none =>
          obtain ⟨hins2, hRing, _⟩ := insert_ring_empty hR hhd v i
          rw [hins] at hins2
          exact ⟨[0], (Option.some_inj.mp hins2) ▸ hRing⟩
      | some hd =>
          obtain ⟨l'', hins2, _, ord', hR'⟩ :=
            insert_ring_nonempty hR hhd v i
          rw [hins] at hins2
          exact ⟨ord', (Option.some_inj.mp hins2) ▸ hR'⟩

/-- Two indices with the same wrapped walk position and the same
head-reassignment test produce identical inserts on a non-empty list. -/
theorem insert_wrap {α : Type} {l : CircularList α} {ord : List Nat}
    (hR : IsRing l ord) {hd : Nat} (hh : l.head = some hd) (v : α)
    (i j : Nat) (hmod : i % l.size = j % l.size) (hz : i = 0 ↔ j = 0) :
    l.insert v i = l.insert v j := by
  obtain ⟨hndp, hmem, hhead, hsize, hlenEq, hC⟩ := hR
  have hne : ord ≠ [] := by
    intro h0
    rw [h0] at hhead
    rw [hhead] at hh
    cases hh
  have hlen0 : 0 < ord.length := List.length_pos.mpr hne
  have hlink := cycAdj_cyc hC hne
  have hd0 : hd = cyc ord 0 := by
    have h0 : ord.head? = some (cyc ord 0) := by
      rw [List.head?_eq_getElem?, List.getElem?_eq_getElem hlen0, cyc,
        Nat.zero_mod, List.getD_eq_getElem _ _ hlen0]
    rw [hhead, h0] at hh
    exact (Option.some_inj.mp hh).symm
  have h1 : nextOf l.nodes hd = some (cyc ord 1) := by
    rw [hd0]
    simpa using (hlink 0).1
  have hmod' : i % ord.length = j % ord.length := by
    rwa [hsize] at hmod
  have hcij : cyc ord (1 + i) = cyc ord (1 + j) :=
    cyc_congr_mod (by rw [Nat.add_mod 1 i, Nat.add_mod 1 j, hmod'])
  have hbase : (1 + i) % ord.length = (1 + j) % ord.length := by
    rw [Nat.add_mod 1 i, Nat.add_mod 1 j, hmod']
  have hxij : cyc ord (1 + i + 1) = cyc ord (1 + j + 1) :=
    cyc_congr_mod (by
      rw [← Nat.mod_add_mod (1 + i) ord.length 1,
        ← Nat.mod_add_mod (1 + j) ord.length 1, hbase])
  have h2i : walkNext l.nodes i (cyc ord 1) = some (cyc ord (1 + i)) := by
    simpa using walk_cyc hC hne i 1
  have h2j : walkNext l.nodes j (cyc ord 1) = some (cyc ord (1 + j)) := by
    simpa using walk_cyc hC hne j 1
  have h3i : nextOf l.nodes (cyc ord (1 + i)) =
      some (cyc ord (1 + i + 1)) := (hlink (1 + i)).1
  have h3j : nextOf l.nodes (cyc ord (1 + j)) =
      some (cyc ord (1 + j + 1)) := (hlink (1 + j)).1
  rw [← hcij] at h2j h3j
  rw [← hxij] at h3j
  have hclt : cyc ord (1 + i) < l.nodes.length :=
    (hmem _).mp (cyc_mem hne _)
  have hxlt : cyc ord (1 + i + 1) < l.nodes.length :=
    (hmem _).mp (cyc_mem hne _)
  rw [insert_eq_splice hh v i h1 h2i h3i hclt hxlt,
    insert_eq_splice hh v j h1 h2j h3j hclt hxlt]
  by_cases h0 : i = 0
  · rw [if_pos h0, if_pos (hz.mp h0)]
  · rw [if_neg h0, if_neg (fun hj0 => h0 (hz.mpr hj0))]

/-- The one-element list obtained by pushing a value into the empty
list (used by witnesses). -/
def r1 : CircularList String :=
  ⟨[⟨"X", some 0, some 0⟩], some 0, 1⟩

theorem r1_reachable : Reachable r1 :=
  Reachable.step "X" 0 Reachable.base rfl

/-- C8: every list reachable by `insert`/`push` from the empty list
satisfies the cycle invariant: from the head, following `next` exactly
`size` times returns to the head; every node's `next.prev` is the node
itself; and one `prev` step from the head reaches the node that is
`size - 1` `next` steps from the head. -/
theorem reachable_cycle_invariant {α : Type} (l : CircularList α)
    (hr : Reachable l) (hd : Nat) (hh : l.head = some hd) :
    walkNext l.nodes l.size hd = some hd ∧
    (∀ i j : Nat, i < l.nodes.length → nextOf l.nodes i = some j →
      prevOf l.nodes j = some i) ∧
    prevOf l.nodes hd = walkNext l.nodes (l.size - 1) hd := by
  obtain ⟨ord, hndp, hmem, hhead, hsize, hlenEq, hC⟩ := reachable_isRing hr
  have hne : ord ≠ [] := by
    intro h0
    rw [h0] at hhead
    rw [hhead] at hh
    cases hh
  have hlen0 : 0 < ord.length := List.length_pos.mpr hne
  have hlink := cycAdj_cyc hC hne
  have hd0 : hd = cyc ord 0 := by
    have h0 : ord.head? = some (cyc ord 0) := by
      rw [List.head?_eq_getElem?, List.getElem?_eq_getElem hlen0, cyc,
        Nat.zero_mod, List.getD_eq_getElem _ _ hlen0]
    rw [hhead, h0] at hh
    exact (Option.some_inj.mp hh).symm
  refine ⟨?_, ?_, ?_⟩
  · rw [hd0, hsize, walk_cyc hC hne ord.length 0,
      show cyc ord (0 + ord.length) = cyc ord 0 from cyc_congr_mod
        (by rw [Nat.zero_add, Nat.mod_self, Nat.zero_mod])]
  · intro i j hi hnext
    have hiord : i ∈ ord := (hmem i).mpr hi
    obtain ⟨⟨k, hk⟩, hik⟩ := List.mem_iff_get.mp hiord
    have hick : i = cyc ord k := by
      rw [cyc_get hk, hik]
    have hl := hlink k
    rw [← hick] at hl
    rw [hl.1] at hnext
    have hj : j = cyc ord (k + 1) := (Option.some_inj.mp hnext).symm
    rw [hj]
    exact hl.2
  · have hl := hlink (ord.length - 1)
    have he : cyc ord (ord.length - 1 + 1) = cyc ord 0 :=
      cyc_congr_mod
        (by rw [show ord.length - 1 + 1 = ord.length from by omega,
          Nat.mod_self, Nat.zero_mod])
    rw [he] at hl
    rw [hd0, hsize, walk_cyc hC hne (ord.length - 1) 0, hl.2,
      Nat.zero_add]

/-- C8 witness: the invariant holds for the concrete one-element ring. -/
theorem reachable_cycle_invariant_witness :
    walkNext r1.nodes r1.size 0 = some 0 ∧
    (∀ i j : Nat, i < r1.nodes.length → nextOf r1.nodes i = some j →
      prevOf r1.nodes j = some i) ∧
    prevOf r1.nodes 0 = walkNext r1.nodes (r1.size - 1) 0 :=
  reachable_cycle_invariant r1 r1_reachable 0 rfl

/-- C10: `insert` never fails on any reachable list and any index: on an
empty list the index is ignored and a single self-linked head node is
allocated; otherwise the position walk wraps around the cycle, the
insert terminates successfully, keeps the structure a single well-formed
cycle, and increments the length by exactly one; two indices with the
same wrapped position (and agreeing on the `index == 0` head test)
produce identical results. -/
theorem insert_never_fails {α : Type} (l : CircularList α)
    (hr : Reachable l) (v : α) (index : Nat) :
    (∃ l', l.insert v index = some l' ∧ Reachable l' ∧
      (∃ ord', IsRing l' ord') ∧ l'.size = l.size + 1) ∧
    (l.head = none →
      l.insert v index = some ⟨[⟨v, some 0, some 0⟩], some 0, 1⟩) ∧
    (∀ j, index % l.size = j % l.size → (index = 0 ↔ j = 0) →
      l.insert v index = l.insert v j) := by
  obtain ⟨ord, hR⟩ := reachable_isRing hr
  refine ⟨?_, ?_, ?_⟩
  · cases hhd : l.head with
    | none =>
        obtain ⟨hins, hRing, hsz⟩ := insert_ring_empty hR hhd v index
        exact ⟨_, hins, Reachable.step v index hr hins, ⟨[0], hRing⟩,
          by rw [hsz]⟩
    | some hd =>
        obtain ⟨l', hins, hsz, ord', hR'⟩ :=
          insert_ring_nonempty hR hhd v index
        exact ⟨l', hins, Reachable.step v index hr hins, ⟨ord', hR'⟩, hsz⟩
  · intro hhd
    exact (insert_ring_empty hR hhd v index).1
  · intro j hmod hz
    cases hhd : l.head with
    | none =>
        rw [(insert_ring_empty hR hhd v index).1,
          (insert_ring_empty hR hhd v j).1]
    | some hd => exact insert_wrap hR hhd v index j hmod hz

/-- C10 witness: inserting at index 3 into the one-element ring. -/
theorem insert_never_fails_witness :
    (∃ l', r1.insert "Y" 3 = some l' ∧ Reachable l' ∧
      (∃ ord', IsRing l' ord') ∧ l'.size = r1.size + 1) ∧
    (r1.head = none →
      r1.insert "Y" 3 = some ⟨[⟨"Y", some 0, some 0⟩], some 0, 1⟩) ∧
    (∀ j, 3 % r1.size = j % r1.size → (3 = 0 ↔ j = 0) →
      r1.insert "Y" 3 = r1.insert "Y" j) :=
  insert_never_fails r1 r1_reachable "Y" 3

/-- C5, amended: inserting at an index greater than the size of a
non-empty list does not fail loudly: the position walk wraps around the
cycle and the insert silently succeeds, growing the size by one — with
the same result as the in-range index `index % size` (adjusted to `size`
itself when the remainder is 0, because only the literal index 0
reassigns the head). -/
theorem insert_out_of_range_wraps {α : Type} (l : CircularList α)
    (hr : Reachable l) (v : α) (index : Nat) (hpos : 0 < l.size)
    (hbig : l.size < index) :
    ∃ l', l.insert v index = some l' ∧ l'.size = l.size + 1 ∧
      l.insert v index = l.insert v
        (if index % l.size = 0 then l.size else index % l.size) := by
  obtain ⟨ord, hR⟩ := reachable_isRing hr
  have hne : ord ≠ [] := by
    intro h0
    have := hR.2.2.2.1
    rw [h0] at this
    simp at this
    omega
  have hhd : ∃ hd, l.head = some hd := by
    have hhead := hR.2.2.1
    cases hord : ord with
    | nil => exact absurd hord hne
    | cons o tl =>
        rw [hord] at hhead
        exact ⟨o, by rw [hhead, List.head?_cons]⟩
  obtain ⟨hd, hhd⟩ := hhd
  obtain ⟨l', hins, hsz, _⟩ := insert_ring_nonempty hR hhd v index
  refine ⟨l', hins, hsz, ?_⟩
  apply insert_wrap hR hhd v
  · by_cases hmod0 : index % l.size = 0
    · rw [if_pos hmod0, Nat.mod_self, hmod0]
    · rw [if_neg hmod0, Nat.mod_mod]
  · constructor
    · intro h0
      omega
    · intro h0
      by_cases hmod0 : index % l.size = 0
      · rw [if_pos hmod0] at h0
        omega
      · rw [if_neg hmod0] at h0
        exact absurd h0 hmod0

/-- C5 counterexample: inserting at index 5 into a one-element list
(5 > size 1) does not fail: the insert succeeds silently and the size
grows to 2. -/
theorem insert_out_of_range_succeeds :
    r1.insert "Q" 5 ≠ none ∧
    (r1.insert "Q" 5).map CircularList.len = some 2 :=
  ⟨by decide, rfl⟩

/-- C5 witness: the amended statement applied to the one-element ring at
index 5. -/
theorem insert_out_of_range_wraps_witness :
    ∃ l', r1.insert "Q" 5 = some l' ∧ l'.size = r1.size + 1 ∧
      r1.insert "Q" 5 = r1.insert "Q"
        (if 5 % r1.size = 0 then r1.size else 5 % r1.size) :=
  insert_out_of_range_wraps r1 r1_reachable "Q" 5 (by decide) (by decide)

/-- C3: pushing X, Y, Z into an empty list yields iteration order
X, Y, Z as claimed, but the subsequent `insert(W, 0)` yields iteration
order W, Z, X, Y — not the claimed W, X, Y, Z.  The walk of `insert`
starts at `head.next` instead of `head`, so the new node is spliced two
positions after the head while still being made the head. -/
theorem insert_at_zero_scrambles_order :
    ((((CircularList.new : CircularList String).push "X").bind
        (fun l => l.push "Y")).bind (fun l => l.push "Z")).map
        CircularList.iterValues = some ["X", "Y", "Z"] ∧
    (((((CircularList.new : CircularList String).push "X").bind
        (fun l => l.push "Y")).bind (fun l => l.push "Z")).bind
        (fun l => l.insert "W" 0)).map CircularList.iterValues =
      some ["W", "Z", "X", "Y"] ∧
    (["W", "Z", "X", "Y"] : List String) ≠ ["W", "X", "Y", "Z"] :=
  ⟨rfl, rfl, by decide⟩

end Atomas
